import Mathlib

/-!
Verification development for the memory store and retrieval engine
(`src/services/enhanced_memory.py`).

The Python source is shallowly embedded: pure functions become Lean
functions, the engine's mutable state (SQLite record table, the two
persisted index files, the in-memory indices and the read-through cache)
becomes an explicit `EngineState` record threaded through the operations,
float scores become exact rationals, and the ambient clock / id generator
become a `now` / `nextId` counter in the state.  The module-level
availability flags (`VECTOR_AVAILABLE`, `TFIDF_AVAILABLE`) and the
constructor configuration become a `Config` value.  Python's process
string hash (used only by the fallback embedding) is a `Config` field.
-/

namespace EnhancedMemory

/-! ### Tokenizer (`KeywordIndexer._extract_keywords`, regex `\b[...]+\b`)

Python's `re.findall(r'\b[a-zA-Z一-龥]+\b', text.lower())` returns
the maximal runs of characters from the class whose neighbouring characters
are not word characters (`\w`): a run glued to a digit or underscore
produces no match at all, because every sub-run fails the `\b` test as
well.  We model the character classes that actually occur in this system
(ASCII letters, ASCII digits, underscore, CJK ideographs). -/

/-- Characters matched by the keyword regex class `[a-zA-Z一-龥]`. -/
def isKwChar (c : Char) : Bool :=
  (('a' ≤ c && c ≤ 'z') || ('A' ≤ c && c ≤ 'Z')
    || (0x4e00 ≤ c.val && c.val ≤ 0x9fa5))

/-- Characters matched by the embedding regex class `[a-zA-Z]`. -/
def isLatinChar (c : Char) : Bool :=
  ('a' ≤ c && c ≤ 'z') || ('A' ≤ c && c ≤ 'Z')

/-- Word characters for the `\b` boundary test (`\w`), restricted to the
character classes this system uses. -/
def isWordCharB (c : Char) : Bool :=
  isKwChar c || ('0' ≤ c && c ≤ '9') || c = '_'

/-- Split a character list into maximal runs of equal classification under
`p` (runs of token characters alternating with runs of other characters). -/
def splitRuns (p : Char → Bool) : List Char → List (List Char)
  | [] => []
  | c :: cs =>
    match splitRuns p cs with
    | [] => [[c]]
    | r :: rs =>
      match r with
      | [] => [c] :: rs
      | d :: _ => if p c == p d then (c :: r) :: rs else [c] :: r :: rs

/-- Keep the runs of `p`-characters whose neighbouring characters pass the
`\b` boundary test (previous and next characters, when present, are not
word characters). -/
def pickRuns (p : Char → Bool) : Option Char → List (List Char) → List (List Char)
  | _, [] => []
  | prev, run :: rest =>
    let keep :=
      match run with
      | [] => false
      | d :: _ =>
        p d &&
        (match prev with | none => true | some q => !isWordCharB q) &&
        (match rest with
         | [] => true
         | [] :: _ => true
         | (e :: _) :: _ => !isWordCharB e)
    let prev' := match run.getLast? with | none => prev | some c => some c
    (if keep then [run] else []) ++ pickRuns p prev' rest

/-- `str.lower()` (ASCII case folding; CJK characters are unaffected, as in
Python). -/
def lowerString (s : String) : String :=
  String.mk (s.data.map Char.toLower)

/-- All regex matches of `\b[class]+\b` over a string, in order. -/
def findTokens (p : Char → Bool) (s : String) : List String :=
  (pickRuns p none (splitRuns p s.data)).map (fun r => String.mk r)

/-- Deduplicate keeping first occurrences (the model's rendering of
Python's `list(set(...))`, whose iteration order is unspecified; no theorem
below depends on this order). -/
def dedupFirst (seen : List String) : List String → List String
  | [] => []
  | x :: xs => if seen.contains x then dedupFirst seen xs
               else x :: dedupFirst (x :: seen) xs

/-- The stopword list of `KeywordIndexer._extract_keywords`. -/
def stopwords : List String :=
  ["的", "了", "在", "是", "我", "有", "和", "就", "不", "人", "都", "一",
   "the", "a", "an", "is", "are", "was", "were", "to", "of", "in", "for",
   "and", "or", "but", "on", "at", "by", "with", "this", "that"]

/-- `KeywordIndexer._extract_keywords`: tokenize the lowered text, drop
single-character tokens and stopwords, deduplicate. -/
def extract_keywords (text : String) : List String :=
  dedupFirst []
    ((findTokens isKwChar (lowerString text)).filter
      (fun w => decide (1 < w.length) && !(stopwords.contains w)))

/-! ### Substring containment (Python's `needle in haystack`) -/

/-- `needle` is a prefix of `hay` (character lists). -/
def startsChars : List Char → List Char → Bool
  | _, [] => true
  | [], _ :: _ => false
  | a :: as2, b :: bs => a = b && startsChars as2 bs

/-- `needle` occurs as a contiguous substring of `hay`. -/
def containsChars : List Char → List Char → Bool
  | [], needle => needle.isEmpty
  | a :: t, needle => startsChars (a :: t) needle || containsChars t needle

/-- Python's `needle in hay` on strings. -/
def strContains (hay needle : String) : Bool :=
  containsChars hay.data needle.data

/-! ### Data model -/

/-- The memory tiers (`layer` column). -/
inductive Layer where
  | daily
  | global
deriving DecidableEq, Repr

/-- The printed name of a layer, as stored in the database. -/
def layerName : Layer → String
  | .daily => "daily"
  | .global => "global"

/-- The projections of the `context` dict that the engine reads:
`context.get("importance")` truthiness, `context.get("type")`,
`context.get("source")`, and `context.get("global_level")` truthiness. -/
structure Context where
  importanceFlag : Bool
  ctxType : Option String
  source : Option String
  globalLevel : Bool
deriving DecidableEq, Repr

/-- A row of the `memories` table (the dataclass `Memory`).  Timestamps are
modelled by the engine's logical clock. -/
structure Record where
  id : Nat
  content : String
  context : Context
  timestamp : Nat
  layer : Layer
  keywords : List String
  importance : ℚ
  accessCount : Nat
  lastAccess : Option Nat
deriving DecidableEq, Repr

/-- A value of the bounded read-through cache (`EnhancedMemory._cache`). -/
structure CacheEntry where
  content : String
  context : Context
  timestamp : Nat
  layer : Layer
  keywords : List String
  importance : ℚ
deriving DecidableEq, Repr

/-- Module-level availability flags, constructor configuration and the
process word hash. -/
structure Config where
  vectorAvailable : Bool
  tfidfAvailable : Bool
  maxDailyMemories : Nat
  globalMemoriesLimit : Nat
  compressionThreshold : Nat
  enableVectorSearch : Bool
  enableCompression : Bool
  wordHash : String → Nat

/-- The engine state: the record table, the in-memory and persisted copies
of the two indices (both indexers write the whole file on every mutation),
the read-through cache, the id generator and the logical clock. -/
structure EngineState where
  records : List Record
  kwIndex : List (String × List Nat)
  kwIndexDisk : List (String × List Nat)
  vecIndex : List (Nat × List ℚ)
  vecIndexDisk : List (Nat × List ℚ)
  cache : List (Nat × CacheEntry)
  nextId : Nat
  now : Nat

/-! ### Keyword index (`KeywordIndexer`) -/

/-- Dict lookup in an insertion-ordered association list. -/
def assocLookup : List (String × List Nat) → String → Option (List Nat)
  | [], _ => none
  | (k, v) :: rest, key => if k = key then some v else assocLookup rest key

/-- One step of `KeywordIndexer.add`: ensure `kw`'s posting list exists and
append `i` to it if not already present (dict insertion order preserved). -/
def assocAddId : List (String × List Nat) → String → Nat → List (String × List Nat)
  | [], kw, i => [(kw, [i])]
  | (k, ids) :: rest, kw, i =>
    if k = kw then (k, if i ∈ ids then ids else ids ++ [i]) :: rest
    else (k, ids) :: assocAddId rest kw i

/-- `KeywordIndexer.add(memory_id, content)` given the already-extracted
keywords. -/
def kw_index_add (idx : List (String × List Nat)) (memoryId : Nat)
    (keywords : List String) : List (String × List Nat) :=
  keywords.foldl (fun acc kw => assocAddId acc kw memoryId) idx

/-- `KeywordIndexer.remove(memory_id)`: drop the first occurrence of the id
from every posting list (`list.remove`), then delete emptied keys. -/
def kw_index_remove (idx : List (String × List Nat)) (memoryId : Nat) :
    List (String × List Nat) :=
  (idx.map (fun p => (p.1, p.2.erase memoryId))).filter (fun p => !p.2.isEmpty)

/-- Increment the count of id `i` in the score dict, inserting it at the
end on first encounter (`defaultdict(int)` insertion order). -/
def bumpScore : List (Nat × Nat) → Nat → List (Nat × Nat)
  | [], i => [(i, 1)]
  | (k, c) :: rest, i =>
    if k = i then (k, c + 1) :: rest else (k, c) :: bumpScore rest i

/-- Descending comparison on keyword-search scores (`sort(key=score,
reverse=True)`, which is stable on ties). -/
def kwScoreRel (x y : Nat × Nat) : Prop := y.2 ≤ x.2

instance : DecidableRel kwScoreRel :=
  fun x y => inferInstanceAs (Decidable (y.2 ≤ x.2))

/-- The score dict of `KeywordIndexer.search`: for each query keyword with
a posting list, bump the count of every id on that list. -/
def kw_scores (idx : List (String × List Nat)) (qk : List String) :
    List (Nat × Nat) :=
  qk.foldl
    (fun acc kw =>
      match assocLookup idx kw with
      | none => acc
      | some ids => ids.foldl (fun a i => bumpScore a i) acc)
    []

/-- `KeywordIndexer.search(query, top_k)`: sum, per candidate id, the
number of query keywords whose posting list contains it; sort descending by
that count (stable); truncate. -/
def kw_search (idx : List (String × List Nat)) (query : String) (topK : Nat) :
    List (Nat × Nat) :=
  (List.insertionSort kwScoreRel (kw_scores idx (extract_keywords query))).take topK

/-! ### Vector store (`VectorStore`) -/

/-- Dict assignment `vectors[memory_id] = embedding`. -/
def vec_add : List (Nat × List ℚ) → Nat → List ℚ → List (Nat × List ℚ)
  | [], i, v => [(i, v)]
  | (k, w) :: rest, i, v =>
    if k = i then (k, v) :: rest else (k, w) :: vec_add rest i v

/-- `vectors.pop(memory_id, None)`. -/
def vec_delete (idx : List (Nat × List ℚ)) (memoryId : Nat) : List (Nat × List ℚ) :=
  idx.filter (fun p => p.1 ≠ memoryId)

/-- Sum of pairwise products (`np.dot`; the engine only ever compares
vectors of the common fixed length 100). -/
def dotProd (v1 v2 : List ℚ) : ℚ :=
  (List.zipWith (fun a b => a * b) v1 v2).sum

/-- Sum of squares (the square of `np.linalg.norm`). -/
def sumSq (v : List ℚ) : ℚ :=
  (v.map (fun a => a * a)).sum

/-- `VectorStore._cosine_similarity`: `0.0` for an empty argument or a zero
norm, otherwise `dot / (|v1| * |v2|)`.  Float arithmetic is modelled
exactly over the reals. -/
noncomputable def cosine_similarity (v1 v2 : List ℚ) : ℝ :=
  if v1 = [] ∨ v2 = [] then 0
  else
    let n1 : ℝ := Real.sqrt ((sumSq v1 : ℚ) : ℝ)
    let n2 : ℝ := Real.sqrt ((sumSq v2 : ℚ) : ℝ)
    if n1 = 0 ∨ n2 = 0 then 0
    else ((dotProd v1 v2 : ℚ) : ℝ) / (n1 * n2)

/-- Descending comparison on similarity scores. -/
def simRel (x y : Nat × ℝ) : Prop := y.2 ≤ x.2

noncomputable instance : DecidableRel simRel :=
  fun _ _ => Classical.dec _

/-- `VectorStore._tfidf_search`: the degraded branch returns the first
`top_k` non-excluded stored ids, each with constant similarity `1.0`. -/
noncomputable def tfidf_search (vecs : List (Nat × List ℚ)) (topK : Nat)
    (excludeIds : List Nat) : List (Nat × ℝ) :=
  (((vecs.filter (fun p => decide (p.1 ∉ excludeIds))).map
      (fun p => (p.1, (1 : ℝ)))).take topK)

/-- `VectorStore.search`: the source tests
`if not VECTOR_AVAILABLE or TFIDF_AVAILABLE`, i.e. it takes the degraded
branch whenever `TFIDF_AVAILABLE` holds, even when numpy is present;
otherwise it scores every non-excluded stored vector by cosine similarity,
sorts descending (stable) and truncates. -/
noncomputable def vector_search (va ta : Bool) (vecs : List (Nat × List ℚ))
    (queryEmbedding : List ℚ) (topK : Nat) (excludeIds : List Nat) :
    List (Nat × ℝ) :=
  if !va || ta then tfidf_search vecs topK excludeIds
  else
    let results := (vecs.filter (fun p => decide (p.1 ∉ excludeIds))).map
      (fun p => (p.1, cosine_similarity queryEmbedding p.2))
    (List.insertionSort simRel results).take topK

/-! ### Engine helpers -/

/-- `EnhancedMemory._create_embedding`: `None` when vector search is
disabled, otherwise a 100-slot vector whose `i`-th slot holds
`hash(word_i) % 1000 / 1000` for the first 100 distinct Latin tokens. -/
def create_embedding (cfg : Config) (content : String) : Option (List ℚ) :=
  if cfg.enableVectorSearch then
    let ws := (dedupFirst [] (findTokens isLatinChar (lowerString content))).take 100
    some ((List.range 100).map
      (fun i => match ws.get? i with
        | some w => ((cfg.wordHash w % 1000 : ℕ) : ℚ) / 1000
        | none => 0))
  else none

/-- Python truthiness of the optional embedding (`if embedding:`): a
non-empty list. -/
def embTruthy : Option (List ℚ) → Bool
  | none => false
  | some v => !v.isEmpty

/-- `EnhancedMemory._calculate_importance`: base `0.5`, the four additive
bonuses, clamped to `[0, 1]`. -/
def calculate_importance (content : String) (ctx : Context) : ℚ :=
  let s1 : ℚ := 1/2
  let s2 := s1 + (if 500 < content.length then 1/10
                  else if 200 < content.length then 1/20 else 0)
  let s3 := s2 + (if ctx.importanceFlag then 1/5 else 0)
  let s4 := s3 + (if ctx.ctxType = some "decision" ∨ ctx.ctxType = some "preference"
                     ∨ ctx.ctxType = some "commitment" then 3/20 else 0)
  let s5 := s4 + (if ctx.source = some "user" then 1/10 else 0)
  min 1 (max 0 s5)

/-- `EnhancedMemory._calculate_relevance`: keyword-overlap ratio over the
deduplicated term sets, weighted `0.6`, plus the binary case-insensitive
substring signal, weighted `0.4`. -/
def calculate_relevance (query content : String) (keywords : List String) : ℚ :=
  let queryWords := (extract_keywords query).toFinset
  let contentWords := keywords.toFinset
  let keywordMatch : ℚ :=
    ((queryWords ∩ contentWords).card : ℚ) / ((max queryWords.card 1 : ℕ) : ℚ)
  let contentMatch : ℚ :=
    if strContains (lowerString content) (lowerString query) then 1 else 0
  keywordMatch * (3/5) + contentMatch * (2/5)

/-! ### `remember` -/

/-- The record created by `EnhancedMemory.remember` (fresh id from the
generator, creation timestamp from the clock, layer derived from the
`global_level` context flag, `access_count = 0`, `last_access = NULL`). -/
def rememberedRecord (s : EngineState) (content : String) (ctx : Context) : Record :=
  { id := s.nextId
    content := content
    context := ctx
    timestamp := s.now
    layer := if ctx.globalLevel then Layer.global else Layer.daily
    keywords := extract_keywords content
    importance := calculate_importance content ctx
    accessCount := 0
    lastAccess := none }

/-- `EnhancedMemory.remember`: insert the record, update both indices
(write-through to their files), update the FIFO-bounded cache
(capacity 100), return the new id.  The conditional fire-and-forget
`_check_compression` task is scheduled, not awaited; it is not part of
this synchronous state transition. -/
def remember (cfg : Config) (s : EngineState) (content : String) (ctx : Context) :
    EngineState × Nat :=
  let r := rememberedRecord s content ctx
  let embedding := create_embedding cfg content
  let kw' := kw_index_add s.kwIndex r.id r.keywords
  let vec' := if embTruthy embedding then
                vec_add s.vecIndex r.id (embedding.getD []) else s.vecIndex
  let vecDisk' := if embTruthy embedding then vec' else s.vecIndexDisk
  let cache1 := s.cache ++
    [(r.id, { content := content, context := ctx, timestamp := s.now,
              layer := r.layer, keywords := r.keywords,
              importance := r.importance })]
  let cache' := if 100 < cache1.length then cache1.tail else cache1
  ({ records := s.records ++ [r]
     kwIndex := kw'
     kwIndexDisk := kw'
     vecIndex := vec'
     vecIndexDisk := vecDisk'
     cache := cache'
     nextId := s.nextId + 1
     now := s.now + 1 }, r.id)

/-! ### `recall` -/

/-- Descending `(importance, timestamp)` comparison: the SQL
`ORDER BY importance DESC, timestamp DESC` of the candidate fetch. -/
def eligibleRel (x y : Record) : Prop :=
  y.importance < x.importance ∨ (y.importance = x.importance ∧ y.timestamp ≤ x.timestamp)

instance : DecidableRel eligibleRel :=
  fun x y => inferInstanceAs
    (Decidable (y.importance < x.importance ∨
      (y.importance = x.importance ∧ y.timestamp ≤ x.timestamp)))

/-- The *eligible set* of a `recall`: the rows matching the layer filter,
ordered by `(importance desc, timestamp desc)`. -/
def eligible_records (s : EngineState) (layer : Option Layer) : List Record :=
  let base := match layer with
    | none => s.records
    | some l => s.records.filter (fun r => decide (r.layer = l))
  List.insertionSort eligibleRel base

/-- The candidate id set of a `recall`: with hybrid search and embeddings
enabled, the ids of the top `2*top_k` vector matches plus the ids of the
top `2*top_k` keyword matches (a set union in the source — only membership
and emptiness of this collection are ever consulted); otherwise the keyword
matches alone. -/
noncomputable def candidate_ids (cfg : Config) (s : EngineState) (query : String)
    (topK : Nat) (useHybrid : Bool) : List Nat :=
  if useHybrid && cfg.enableVectorSearch then
    let embedding := create_embedding cfg query
    let vecIds :=
      if embTruthy embedding then
        (vector_search cfg.vectorAvailable cfg.tfidfAvailable s.vecIndex
          (embedding.getD []) (topK * 2) []).map Prod.fst
      else []
    let kwIds := (kw_search s.kwIndex query (topK * 2)).map Prod.fst
    vecIds ++ kwIds
  else
    (kw_search s.kwIndex query (topK * 2)).map Prod.fst

/-- The records that survive the candidate filter
(`if candidate_ids and mem_id not in candidate_ids: continue`): an empty
candidate collection filters nothing. -/
noncomputable def recall_survivors (cfg : Config) (s : EngineState) (query : String)
    (layer : Option Layer) (topK : Nat) (useHybrid : Bool) : List Record :=
  (eligible_records s layer).filter
    (fun r => (candidate_ids cfg s query topK useHybrid).isEmpty
              || decide (r.id ∈ candidate_ids cfg s query topK useHybrid))

/-- Descending comparison on relevance scores (`results.sort(key=score,
reverse=True)`, stable on ties). -/
def scoreRel (x y : Record × ℚ) : Prop := y.2 ≤ x.2

instance : DecidableRel scoreRel :=
  fun x y => inferInstanceAs (Decidable (y.2 ≤ x.2))

instance : IsTotal (Record × ℚ) scoreRel :=
  ⟨fun a b => le_total b.2 a.2⟩

instance : IsTrans (Record × ℚ) scoreRel :=
  ⟨fun _ _ _ h1 h2 => le_trans h2 h1⟩

/-- The scored surviving candidates, in eligible-set order. -/
noncomputable def recall_scored (cfg : Config) (s : EngineState) (query : String)
    (layer : Option Layer) (topK : Nat) (useHybrid : Bool) : List (Record × ℚ) :=
  (recall_survivors cfg s query layer topK useHybrid).map
    (fun r => (r, calculate_relevance query r.content r.keywords))

/-- The scored candidates sorted by score descending (stable). -/
noncomputable def recall_ranked (cfg : Config) (s : EngineState) (query : String)
    (layer : Option Layer) (topK : Nat) (useHybrid : Bool) : List (Record × ℚ) :=
  List.insertionSort scoreRel (recall_scored cfg s query layer topK useHybrid)

/-- `EnhancedMemory._update_access` for one id: bump `access_count` and
stamp `last_access` on every row with that id (`UPDATE ... WHERE id = ?`). -/
def update_access (memoryId : Nat) (now : Nat) (recs : List Record) : List Record :=
  recs.map (fun r =>
    if r.id = memoryId then
      { r with accessCount := r.accessCount + 1, lastAccess := some now }
    else r)

/-- `EnhancedMemory.recall`: rank the surviving candidates, return the
first `top_k`, and bump the access statistics of each returned record. -/
noncomputable def recall_memories (cfg : Config) (s : EngineState) (query : String)
    (layer : Option Layer) (topK : Nat) (useHybrid : Bool) :
    EngineState × List Record :=
  let returned :=
    ((recall_ranked cfg s query layer topK useHybrid).take topK).map Prod.fst
  let recs' := (returned.map Record.id).foldl
    (fun rs i => update_access i s.now rs) s.records
  ({ s with records := recs', now := s.now + 1 }, returned)

/-! ### `compress` -/

/-- Descending `timestamp` comparison: the `ORDER BY timestamp DESC` of
the `compress` fetch. -/
def tsDescRel (x y : Record) : Prop := y.timestamp ≤ x.timestamp

instance : DecidableRel tsDescRel :=
  fun x y => inferInstanceAs (Decidable (y.timestamp ≤ x.timestamp))

/-- Descending `(importance, access_count)` comparison: Python's
`sort(key=lambda x: (importance, access_count), reverse=True)`, stable on
full ties. -/
def compressRel (x y : Record) : Prop :=
  y.importance < x.importance ∨
    (y.importance = x.importance ∧ y.accessCount ≤ x.accessCount)

instance : DecidableRel compressRel :=
  fun x y => inferInstanceAs
    (Decidable (y.importance < x.importance ∨
      (y.importance = x.importance ∧ y.accessCount ≤ x.accessCount)))

/-- The ids marked for deletion in one layer: nothing when the layer is
within its capacity, otherwise every record beyond the capacity boundary
of the `(importance desc, access_count desc)` ranking. -/
def layer_deletions (layerRecs : List Record) (capacity : Nat) : List Nat :=
  if capacity < layerRecs.length then
    ((List.insertionSort compressRel layerRecs).drop capacity).map Record.id
  else []

/-- The result dictionary of `compress`. -/
structure CompressResult where
  deletedCount : Nat
  remainingCount : Nat
  strategy : String
  timestamp : Nat
deriving DecidableEq, Repr

/-- The daily-layer records of the newest-first `compress` fetch. -/
def compress_daily (s : EngineState) : List Record :=
  (List.insertionSort tsDescRel s.records).filter
    (fun r => decide (r.layer = Layer.daily))

/-- The global-layer records of the newest-first `compress` fetch. -/
def compress_global (s : EngineState) : List Record :=
  (List.insertionSort tsDescRel s.records).filter
    (fun r => decide (r.layer = Layer.global))

/-- The union of the two layers' deletion sets. -/
def compress_deleted_ids (cfg : Config) (s : EngineState) : List Nat :=
  layer_deletions (compress_daily s) cfg.maxDailyMemories ++
    layer_deletions (compress_global s) cfg.globalMemoriesLimit

/-- `EnhancedMemory.compress`: fetch all records newest-first, split by
layer, mark each over-capacity layer's overflow for deletion, delete the
union from the table and remove the same ids from both indices
(write-through). -/
def compress (cfg : Config) (s : EngineState) (strategy : String) :
    EngineState × CompressResult :=
  let deletedIds := compress_deleted_ids cfg s
  let recs' := s.records.filter (fun r => decide (r.id ∉ deletedIds))
  let kw' := deletedIds.foldl (fun idx i => kw_index_remove idx i) s.kwIndex
  let vec' := deletedIds.foldl (fun idx i => vec_delete idx i) s.vecIndex
  ({ s with
      records := recs'
      kwIndex := kw'
      kwIndexDisk := if deletedIds.isEmpty then s.kwIndexDisk else kw'
      vecIndex := vec'
      vecIndexDisk := if deletedIds.isEmpty then s.vecIndexDisk else vec' },
   { deletedCount := deletedIds.length
     remainingCount := recs'.length
     strategy := strategy
     timestamp := s.now })

/-! ### `clear` and `export` -/

/-- `EnhancedMemory.clear`: delete the matching rows, then re-instantiate
both indexers — whose constructors *reload the persisted index files*
(`_load_vectors` / `_load_index`), which `clear` never deletes — and drop
the cache.  Returns the deleted row count. -/
def clear (s : EngineState) (layer : Option Layer) : EngineState × Nat :=
  let deleted := match layer with
    | some l => (s.records.filter (fun r => decide (r.layer = l))).length
    | none => s.records.length
  let recs' := match layer with
    | some l => s.records.filter (fun r => decide (r.layer ≠ l))
    | none => []
  ({ s with
      records := recs'
      kwIndex := s.kwIndexDisk
      vecIndex := s.vecIndexDisk
      cache := [] }, deleted)

/-- The export document (`export_time`, `layer`, `count`, `memories`). -/
structure ExportDoc where
  exportTime : Nat
  layerField : String
  count : Nat
  memories : List Record
deriving DecidableEq, Repr

/-- `EnhancedMemory.export`: read the matching rows and build the export
document; the engine state is only read, never written (the document goes
to an external file). -/
def export_memories (s : EngineState) (layer : Option Layer) :
    EngineState × ExportDoc :=
  let rows := match layer with
    | some l => s.records.filter (fun r => decide (r.layer = l))
    | none => s.records
  (s, { exportTime := s.now
        layerField := match layer with | some l => layerName l | none => "all"
        count := rows.length
        memories := rows })

/-! ### Concrete fixtures used by counterexamples and witnesses -/

/-- A configuration in which both numeric libraries are importable
(`VECTOR_AVAILABLE` and `TFIDF_AVAILABLE` both hold — the normal situation
on a machine with numpy and scikit-learn installed) with the default
constructor limits. -/
def cfgX : Config :=
  { vectorAvailable := true, tfidfAvailable := true,
    maxDailyMemories := 1000, globalMemoriesLimit := 5000,
    compressionThreshold := 2000, enableVectorSearch := true,
    enableCompression := true, wordHash := fun _ => 0 }

/-- A freshly constructed engine over an empty storage directory. -/
def emptyState : EngineState :=
  { records := [], kwIndex := [], kwIndexDisk := [], vecIndex := [],
    vecIndexDisk := [], cache := [], nextId := 0, now := 0 }

/-- A context dict whose `importance` entry is truthy. -/
def ctxImp : Context := ⟨true, none, none, false⟩

/-- The empty context dict. -/
def ctx0 : Context := ⟨false, none, none, false⟩

/-! ### General helper lemmas -/

lemma range_map_isEmpty (f : Nat → ℚ) : ((List.range 100).map f).isEmpty = false := by
  simp [List.isEmpty_iff, List.range_eq_nil]

/-- With vector search enabled the fallback embedding is a 100-slot list,
which is truthy in Python regardless of its contents. -/
lemma embTruthy_enabled (cfg : Config) (c : String) (h : cfg.enableVectorSearch = true) :
    embTruthy (create_embedding cfg c) = true := by
  simp [create_embedding, h, embTruthy, range_map_isEmpty]

lemma kx : extract_keywords "x" = [] := by decide

lemma lx : lowerString "x" = "x" := by decide

lemma sxx : strContains "x" "x" = true := by decide

/-! ### Claim C1 -/

/-- Claim C1, evaluated at a failing input.  The claim says that whenever a
numeric backend (numpy) is available, `VectorStore.search` ranks candidates
by cosine similarity and only degrades to constant-`1.0` scores when no
numeric backend is available.  The source instead tests
`if not VECTOR_AVAILABLE or TFIDF_AVAILABLE`, so with numpy *and*
scikit-learn both importable (`va = true`, `ta = true`) it returns the
stored ids in insertion order with constant similarity `1.0`, even though
the cosine ranking of the same store `(id 1 ↦ [0,1], id 2 ↦ [1,0])`
against the query `[1,0]` would put id 2 (similarity `1`) strictly above
id 1 (similarity `0`). -/
theorem vector_search_ignores_numeric_backend :
    vector_search true true [(1, [0, 1]), (2, [1, 0])] [1, 0] 10 [] =
      [(1, (1 : ℝ)), (2, (1 : ℝ))]
    ∧ cosine_similarity [1, 0] [1, 0] = 1
    ∧ cosine_similarity [1, 0] [0, 1] = 0
    ∧ cosine_similarity [1, 0] [0, 1] < cosine_similarity [1, 0] [1, 0] := by
  have hne : ¬(([1, 0] : List ℚ) = [] ∨ ([1, 0] : List ℚ) = []) := by decide
  have hne2 : ¬(([1, 0] : List ℚ) = [] ∨ ([0, 1] : List ℚ) = []) := by decide
  have h1 : cosine_similarity [1, 0] [1, 0] = 1 := by
    rw [cosine_similarity, if_neg hne]
    norm_num [sumSq, dotProd, Real.sqrt_one]
  have h0 : cosine_similarity [1, 0] [0, 1] = 0 := by
    rw [cosine_similarity, if_neg hne2]
    norm_num [sumSq, dotProd, Real.sqrt_one]
  refine ⟨?_, h1, h0, by rw [h0, h1]; norm_num⟩
  norm_num [vector_search, tfidf_search]

/-! ### Claim C2 -/

/-- Claim C2, evaluated at a failing input.  The claim (and the spec) say
that after `clear` both indices are empty and no id in either index is
dangling.  But `clear` re-instantiates `KeywordIndexer` and `VectorStore`,
whose constructors *reload the persisted index files* which `clear` never
deletes: after `remember("hello world", {})` followed by `clear(None)` the
record table is empty, yet the keyword index still maps `"hello"` to the
deleted id `0` and the vector index still stores id `0` — both dangling.
Only the read-through cache is actually dropped. -/
theorem clear_reloads_persisted_indices :
    ((clear (remember cfgX emptyState "hello world" ctx0).1 none).1.records = []
      ∧ (clear (remember cfgX emptyState "hello world" ctx0).1 none).1.cache = [])
    ∧ (clear (remember cfgX emptyState "hello world" ctx0).1 none).1.kwIndex ≠ []
    ∧ assocLookup
        (clear (remember cfgX emptyState "hello world" ctx0).1 none).1.kwIndex
        "hello" = some [0]
    ∧ (clear (remember cfgX emptyState "hello world" ctx0).1 none).1.vecIndex.map
        Prod.fst = [0] := by
  refine ⟨⟨by decide, by decide⟩, by decide, by decide, by decide⟩

/-! ### Claim C3 -/

/-- Claim C3 is false as stated: a counterexample.  Starting from an empty
engine, `remember("x", {"importance": True})` stores record `0` with
importance `0.7`; then `remember("x", {})` returns the fresh id `1`
(importance `0.5`).  An immediately following
`recall("x", layer=None, top_k=1)` — `top_k ≥ 1` as the claim demands —
returns only record `0`: the query `"x"` has no extractable terms, both
records score `0.4`, and the tie is broken by the eligible-set order
(importance descending), so the older, more important record wins the
single slot and the result does not contain the id just returned. -/
theorem recall_misses_new_id_small_topk :
    (remember cfgX (remember cfgX emptyState "x" ctxImp).1 "x" ctx0).2 = 1
    ∧ ((recall_memories cfgX
          (remember cfgX (remember cfgX emptyState "x" ctxImp).1 "x" ctx0).1
          "x" none 1 true).2.map Record.id) = [0]
    ∧ (remember cfgX (remember cfgX emptyState "x" ctxImp).1 "x" ctx0).2 ∉
        ((recall_memories cfgX
          (remember cfgX (remember cfgX emptyState "x" ctxImp).1 "x" ctx0).1
          "x" none 1 true).2.map Record.id) := by
  have h2 : ((recall_memories cfgX
      (remember cfgX (remember cfgX emptyState "x" ctxImp).1 "x" ctx0).1
      "x" none 1 true).2.map Record.id) = [0] := by
    norm_num +decide [recall_memories, recall_ranked, recall_scored, recall_survivors,
      candidate_ids, eligible_records, remember, rememberedRecord, emptyState, cfgX,
      ctxImp, ctx0, embTruthy_enabled, vector_search, tfidf_search, kw_search,
      kw_index_add, vec_add, calculate_importance, calculate_relevance,
      List.insertionSort, List.orderedInsert, eligibleRel, scoreRel, kx, lx, sxx]
  refine ⟨by decide, h2, ?_⟩
  rw [h2]
  decide

/-! ### Claim C4 -/

/-- Claim C4: the importance stored at creation equals the spec's
heuristic — base `0.5`, `+0.1` for content longer than 500 (else `+0.05`
beyond 200), `+0.2` for a truthy `importance` flag, `+0.15` for a
decision/preference/commitment type, `+0.1` for a user source, clamped to
`[0,1]` — hence it always lies in `[0,1]`, and any record remembered with
`{"type": "decision"}` has importance at least `0.65`. -/
theorem importance_heuristic_spec (s : EngineState) (content : String) (ctx : Context) :
    (rememberedRecord s content ctx).importance =
      min 1 (max 0 ((1/2 : ℚ)
        + (if 500 < content.length then 1/10
           else if 200 < content.length then 1/20 else 0)
        + (if ctx.importanceFlag then 1/5 else 0)
        + (if ctx.ctxType = some "decision" ∨ ctx.ctxType = some "preference"
              ∨ ctx.ctxType = some "commitment" then 3/20 else 0)
        + (if ctx.source = some "user" then 1/10 else 0)))
    ∧ 0 ≤ (rememberedRecord s content ctx).importance
    ∧ (rememberedRecord s content ctx).importance ≤ 1
    ∧ (ctx.ctxType = some "decision" →
        13/20 ≤ (rememberedRecord s content ctx).importance) := by
  refine ⟨rfl, ?_, ?_, ?_⟩
  · simp only [rememberedRecord, calculate_importance]
    positivity
  · simp only [rememberedRecord, calculate_importance]
    exact min_le_left _ _
  · intro h
    unfold rememberedRecord calculate_importance
    rw [h, if_pos (Or.inl rfl)]
    have hlen : (0:ℚ) ≤ (if 500 < content.length then 1/10
        else if 200 < content.length then 1/20 else 0) := by
      split_ifs <;> norm_num
    have himp : (0:ℚ) ≤ (if ctx.importanceFlag then 1/5 else 0) := by
      split_ifs <;> norm_num
    have hsrc : (0:ℚ) ≤ (if ctx.source = some "user" then 1/10 else 0) := by
      split_ifs <;> norm_num
    refine le_min (by norm_num) (le_max_of_le_right (by linarith))

/-- Witness for C4: a concrete `{"type": "decision"}` record. -/
theorem importance_heuristic_spec_witness :
    (⟨false, some "decision", none, false⟩ : Context).ctxType = some "decision"
    ∧ 13/20 ≤ (rememberedRecord emptyState "ok"
        ⟨false, some "decision", none, false⟩).importance :=
  ⟨rfl, (importance_heuristic_spec emptyState "ok"
      ⟨false, some "decision", none, false⟩).2.2.2 rfl⟩

/-! ### Claim C5 -/

/-- The relevance formula exactly as the spec states it:
`0.6 * (|query_terms ∩ record.keywords| / max(|query_terms|, 1))
 + 0.4 * (1.0 if the query is a case-insensitive substring of the content
 else 0.0)`, over the deduplicated normalized term sets. -/
def relevance_spec_formula (query content : String) (keywords : List String) : ℚ :=
  (3/5) * ((((extract_keywords query).toFinset ∩ keywords.toFinset).card : ℚ)
            / ((max (extract_keywords query).toFinset.card 1 : ℕ) : ℚ))
  + (2/5) * (if strContains (lowerString content) (lowerString query) then 1 else 0)

/-- Claim C5: the score `recall` computes for every surviving candidate is
exactly the spec's relevance formula. -/
theorem relevance_formula_spec :
    (∀ (q c : String) (kws : List String),
        calculate_relevance q c kws = relevance_spec_formula q c kws)
    ∧ ∀ (cfg : Config) (s : EngineState) (q : String) (layer : Option Layer)
        (topK : Nat) (hyb : Bool),
        recall_scored cfg s q layer topK hyb =
          (recall_survivors cfg s q layer topK hyb).map
            (fun r : Record => (r, relevance_spec_formula q r.content r.keywords)) := by
  have heq : ∀ (q c : String) (kws : List String),
      calculate_relevance q c kws = relevance_spec_formula q c kws := by
    intro q c kws
    unfold calculate_relevance relevance_spec_formula
    ring
  refine ⟨heq, ?_⟩
  intro cfg s q layer topK hyb
  unfold recall_scored
  simp only [heq]

/-! ### Claim C10 -/

/-- Claim C10: `export` is a pure read of the engine — the record table,
both in-memory indices, both persisted index files, the cache, the id
generator and the clock are unchanged — and the produced document carries
the layer name (or `"all"`), the filtered rows and their count. -/
theorem export_preserves_state (s : EngineState) (layer : Option Layer) :
    (export_memories s layer).1.records = s.records
    ∧ (export_memories s layer).1.kwIndex = s.kwIndex
    ∧ (export_memories s layer).1.kwIndexDisk = s.kwIndexDisk
    ∧ (export_memories s layer).1.vecIndex = s.vecIndex
    ∧ (export_memories s layer).1.vecIndexDisk = s.vecIndexDisk
    ∧ (export_memories s layer).1.cache = s.cache
    ∧ (export_memories s layer).1 = s
    ∧ (export_memories s layer).2.memories =
        (match layer with
         | some l => s.records.filter (fun r => decide (r.layer = l))
         | none => s.records)
    ∧ (export_memories s layer).2.count = (export_memories s layer).2.memories.length
    ∧ (export_memories s layer).2.layerField =
        (match layer with | some l => layerName l | none => "all") := by
  refine ⟨rfl, rfl, rfl, rfl, rfl, rfl, rfl, rfl, rfl, rfl⟩

/-! ### Claim C6 -/

/-- Claim C6: with `use_hybrid` and embeddings enabled the candidate id
collection of a `recall` is exactly the union of the ids of the top
`2*top_k` Vector Index matches and the ids of the top `2*top_k` Keyword
Index matches (the query embedding is a truthy 100-slot list whenever
embeddings are enabled, so the vector side is always consulted); otherwise
it is the Keyword Index result alone; and an empty candidate collection
filters nothing — the surviving set is the entire eligible set. -/
theorem recall_candidate_union_spec (cfg : Config) (s : EngineState) (q : String)
    (layer : Option Layer) (topK : Nat) (hyb : Bool) :
    (hyb = true → cfg.enableVectorSearch = true →
      candidate_ids cfg s q topK hyb =
        (vector_search cfg.vectorAvailable cfg.tfidfAvailable s.vecIndex
            ((create_embedding cfg q).getD []) (topK * 2) []).map Prod.fst ++
          (kw_search s.kwIndex q (topK * 2)).map Prod.fst
      ∧ ∀ i : Nat, i ∈ candidate_ids cfg s q topK hyb ↔
          (i ∈ (vector_search cfg.vectorAvailable cfg.tfidfAvailable s.vecIndex
              ((create_embedding cfg q).getD []) (topK * 2) []).map Prod.fst
            ∨ i ∈ (kw_search s.kwIndex q (topK * 2)).map Prod.fst))
    ∧ ((hyb = false ∨ cfg.enableVectorSearch = false) →
        candidate_ids cfg s q topK hyb =
          (kw_search s.kwIndex q (topK * 2)).map Prod.fst)
    ∧ (candidate_ids cfg s q topK hyb = [] →
        recall_survivors cfg s q layer topK hyb = eligible_records s layer) := by
  refine ⟨?_, ?_, ?_⟩
  · intro hh he
    have hcand : candidate_ids cfg s q topK hyb =
        (vector_search cfg.vectorAvailable cfg.tfidfAvailable s.vecIndex
            ((create_embedding cfg q).getD []) (topK * 2) []).map Prod.fst ++
          (kw_search s.kwIndex q (topK * 2)).map Prod.fst := by
      unfold candidate_ids
      rw [hh, he]
      simp [embTruthy_enabled cfg q he]
    exact ⟨hcand, fun i => by rw [hcand]; exact List.mem_append⟩
  · intro h
    unfold candidate_ids
    rcases h with h | h <;> simp [h]
  · intro h
    unfold recall_survivors
    rw [h]
    simp [List.filter_eq_self]

/-- Witness for C6: on a fresh engine both sub-searches return nothing, the
candidate collection is empty, and the surviving set is the whole (empty)
eligible set. -/
theorem recall_candidate_union_spec_witness :
    candidate_ids cfgX emptyState "x" 1 true = []
    ∧ recall_survivors cfgX emptyState "x" none 1 true =
        eligible_records emptyState none := by
  have h := recall_candidate_union_spec cfgX emptyState "x" none 1 true
  have hc : candidate_ids cfgX emptyState "x" 1 true = [] := by
    rw [(h.1 rfl rfl).1]
    simp [vector_search, tfidf_search, cfgX, emptyState, kw_search, kx]
  exact ⟨hc, h.2.2 hc⟩

/-! ### Helper lemmas about the index structures -/

lemma vec_add_fst_mem (idx : List (Nat × List ℚ)) (i : Nat) (v : List ℚ) :
    i ∈ (vec_add idx i v).map Prod.fst := by
  induction idx with
  | nil => simp [vec_add]
  | cons p rest ih =>
    obtain ⟨k, w⟩ := p
    simp only [vec_add]
    split_ifs with h
    · simp [h]
    · simpa using Or.inr (by simpa using ih)

lemma vec_add_length (idx : List (Nat × List ℚ)) (i : Nat) (v : List ℚ) :
    (vec_add idx i v).length ≤ idx.length + 1 := by
  induction idx with
  | nil => simp [vec_add]
  | cons p rest ih =>
    obtain ⟨k, w⟩ := p
    simp only [vec_add]
    split_ifs with h
    · simp
    · simpa using ih

lemma length_le_of_nodup_subset {l1 l2 : List Nat} (h1 : l1.Nodup) (h2 : l1 ⊆ l2) :
    l1.length ≤ l2.length :=
  (List.subperm_of_subset h1 h2).length_le

/-- Membership in the ids of a `VectorStore.search` result, in either
branch, provided the store is small enough that the truncation bites
nothing and the id is stored and not excluded. -/
lemma vector_search_mem_of_le (va ta : Bool) (vecs : List (Nat × List ℚ))
    (q : List ℚ) (k : Nat) (i : Nat)
    (hlen : vecs.length ≤ k) (hmem : i ∈ vecs.map Prod.fst) :
    i ∈ (vector_search va ta vecs q k []).map Prod.fst := by
  have hfil : vecs.filter (fun p => decide (p.1 ∉ ([] : List Nat))) = vecs := by
    simp
  unfold vector_search
  split_ifs with hb
  · unfold tfidf_search
    rw [hfil]
    have ht : (vecs.map (fun p => (p.1, (1 : ℝ)))).take k
        = vecs.map (fun p => (p.1, (1 : ℝ))) :=
      List.take_of_length_le (by simpa using hlen)
    rw [ht, List.map_map]
    simpa using hmem
  · rw [hfil]
    have hperm :
        List.Perm
          (List.insertionSort simRel
            (vecs.map (fun p => (p.1, cosine_similarity q p.2))))
          (vecs.map (fun p => (p.1, cosine_similarity q p.2))) :=
      List.perm_insertionSort _ _
    have hlen2 : (List.insertionSort simRel
        (vecs.map (fun p => (p.1, cosine_similarity q p.2)))).length ≤ k := by
      rw [List.length_insertionSort, List.length_map]
      exact hlen
    rw [List.take_of_length_le hlen2]
    have := (hperm.map Prod.fst).mem_iff (a := i)
    rw [this, List.map_map]
    simpa using hmem

lemma assocLookup_mem {idx : List (String × List Nat)} {kw : String} {ids : List Nat}
    (h : assocLookup idx kw = some ids) : (kw, ids) ∈ idx := by
  induction idx with
  | nil => simp [assocLookup] at h
  | cons p rest ih =>
    obtain ⟨k, v⟩ := p
    simp only [assocLookup] at h
    split_ifs at h with hk
    · subst hk
      obtain rfl : v = ids := by simpa using h
      exact List.mem_cons_self _ _
    · exact List.mem_cons_of_mem _ (ih h)

lemma assocAddId_self (idx : List (String × List Nat)) (kw : String) (i : Nat) :
    ∃ ids, assocLookup (assocAddId idx kw i) kw = some ids ∧ i ∈ ids := by
  induction idx with
  | nil => exact ⟨[i], by simp [assocAddId, assocLookup], by simp⟩
  | cons p rest ih =>
    obtain ⟨k, v⟩ := p
    by_cases hk : k = kw
    · subst hk
      by_cases hv : i ∈ v
      · exact ⟨v, by simp [assocAddId, assocLookup, hv], hv⟩
      · exact ⟨v ++ [i], by simp [assocAddId, assocLookup, hv], by simp⟩
    · obtain ⟨ids, hl, hi⟩ := ih
      exact ⟨ids, by simp [assocAddId, assocLookup, hk, hl], hi⟩

lemma assocAddId_preserves (idx : List (String × List Nat)) (kw2 : String)
    (i j : Nat) (kw : String)
    (h : ∃ ids, assocLookup idx kw = some ids ∧ j ∈ ids) :
    ∃ ids, assocLookup (assocAddId idx kw2 i) kw = some ids ∧ j ∈ ids := by
  induction idx with
  | nil =>
    obtain ⟨ids, hl, _⟩ := h
    simp [assocLookup] at hl
  | cons p rest ih =>
    obtain ⟨k, v⟩ := p
    obtain ⟨ids, hl, hj⟩ := h
    by_cases hk : k = kw2
    · subst hk
      by_cases hq : k = kw
      · subst hq
        have heq : v = ids := by simpa [assocLookup] using hl
        have hjv : j ∈ v := by rw [heq]; exact hj
        refine ⟨if i ∈ v then v else v ++ [i],
          by simp [assocAddId, assocLookup], ?_⟩
        split_ifs with hv
        · exact hjv
        · exact List.mem_append.mpr (Or.inl hjv)
      · have hl2 : assocLookup rest kw = some ids := by
          simpa [assocLookup, hq] using hl
        exact ⟨ids, by simp [assocAddId, assocLookup, hq, hl2], hj⟩
    · by_cases hq : k = kw
      · subst hq
        have heq : v = ids := by simpa [assocLookup] using hl
        have hjv : j ∈ v := by rw [heq]; exact hj
        exact ⟨v, by simp [assocAddId, assocLookup, hk], hjv⟩
      · have hl2 : assocLookup rest kw = some ids := by
          simpa [assocLookup, hq] using hl
        obtain ⟨ids2, hl3, hj2⟩ := ih ⟨ids, hl2, hj⟩
        exact ⟨ids2, by simp [assocAddId, assocLookup, hk, hq, hl3], hj2⟩

lemma kw_index_foldl_lookup (kws : List String) (acc : List (String × List Nat))
    (i : Nat) (kw : String)
    (h : kw ∈ kws ∨ ∃ ids, assocLookup acc kw = some ids ∧ i ∈ ids) :
    ∃ ids, assocLookup (kws.foldl (fun a k => assocAddId a k i) acc) kw = some ids
      ∧ i ∈ ids := by
  induction kws generalizing acc with
  | nil => simpa using h.resolve_left (by simp)
  | cons k rest ih =>
    simp only [List.foldl_cons]
    rcases h with hmem | hprev
    · rcases List.mem_cons.mp hmem with rfl | hr
      · exact ih _ (Or.inr (assocAddId_self acc kw i))
      · exact ih _ (Or.inl hr)
    · exact ih _ (Or.inr (assocAddId_preserves acc k i i kw hprev))

lemma kw_index_add_lookup (idx : List (String × List Nat)) (i : Nat)
    (kws : List String) (kw : String) (hkw : kw ∈ kws) :
    ∃ ids, assocLookup (kw_index_add idx i kws) kw = some ids ∧ i ∈ ids :=
  kw_index_foldl_lookup kws idx i kw (Or.inl hkw)

/-- Every id on a posting list after `assocAddId` is the new id or was on
some posting list before. -/
lemma assocAddId_posting_subset (idx : List (String × List Nat)) (kw : String)
    (i : Nat) :
    ∀ p ∈ assocAddId idx kw i, ∀ j ∈ p.2, j = i ∨ ∃ q ∈ idx, j ∈ q.2 := by
  induction idx with
  | nil =>
    intro p hp j hj
    simp only [assocAddId, List.mem_singleton] at hp
    subst hp
    simp only [List.mem_singleton] at hj
    exact Or.inl hj
  | cons q0 rest ih =>
    obtain ⟨k, v⟩ := q0
    intro p hp j hj
    by_cases hk : k = kw
    · simp only [assocAddId, if_pos hk] at hp
      rcases List.mem_cons.mp hp with rfl | hrest
      · have hj2 : j ∈ (if i ∈ v then v else v ++ [i]) := hj
        by_cases hv : i ∈ v
        · rw [if_pos hv] at hj2
          exact Or.inr ⟨(k, v), List.mem_cons_self _ _, hj2⟩
        · rw [if_neg hv] at hj2
          rcases List.mem_append.mp hj2 with hjv | hji
          · exact Or.inr ⟨(k, v), List.mem_cons_self _ _, hjv⟩
          · simp only [List.mem_singleton] at hji
            exact Or.inl hji
      · exact Or.inr ⟨p, List.mem_cons_of_mem _ hrest, hj⟩
    · simp only [assocAddId, if_neg hk] at hp
      rcases List.mem_cons.mp hp with rfl | hrest
      · exact Or.inr ⟨(k, v), List.mem_cons_self _ _, hj⟩
      · rcases ih p hrest j hj with h1 | ⟨q2, hq2, hjq2⟩
        · exact Or.inl h1
        · exact Or.inr ⟨q2, List.mem_cons_of_mem _ hq2, hjq2⟩

lemma kw_index_add_posting_subset (idx : List (String × List Nat)) (i : Nat)
    (kws : List String) :
    ∀ p ∈ kw_index_add idx i kws, ∀ j ∈ p.2, j = i ∨ ∃ q ∈ idx, j ∈ q.2 := by
  unfold kw_index_add
  induction kws generalizing idx with
  | nil => intro p hp j hj; exact Or.inr ⟨p, hp, hj⟩
  | cons k rest ih =>
    intro p hp j hj
    simp only [List.foldl_cons] at hp
    rcases ih (assocAddId idx k i) p hp j hj with hji | ⟨q, hq, hjq⟩
    · exact Or.inl hji
    · rcases assocAddId_posting_subset idx k i q hq j hjq with hji | hrest
      · exact Or.inl hji
      · exact Or.inr hrest

/-! Lemmas about the keyword-search score dict. -/

lemma bumpScore_fst_mem_preserve (acc : List (Nat × Nat)) (j i : Nat)
    (h : i ∈ acc.map Prod.fst) : i ∈ (bumpScore acc j).map Prod.fst := by
  induction acc with
  | nil => simp at h
  | cons p rest ih =>
    obtain ⟨k, c⟩ := p
    simp only [bumpScore]
    split_ifs with hk
    · simpa using h
    · simp only [List.map_cons, List.mem_cons] at h ⊢
      rcases h with h | h
      · exact Or.inl h
      · exact Or.inr (ih h)

lemma bumpScore_fst_mem_self (acc : List (Nat × Nat)) (j : Nat) :
    j ∈ (bumpScore acc j).map Prod.fst := by
  induction acc with
  | nil => simp [bumpScore]
  | cons p rest ih =>
    obtain ⟨k, c⟩ := p
    simp only [bumpScore]
    split_ifs with hk
    · simp [hk]
    · simpa using Or.inr ih

lemma bumpScore_fst_subset (acc : List (Nat × Nat)) (j : Nat) :
    ∀ x ∈ (bumpScore acc j).map Prod.fst, x = j ∨ x ∈ acc.map Prod.fst := by
  induction acc with
  | nil => intro x hx; simp [bumpScore] at hx; exact Or.inl hx
  | cons p rest ih =>
    obtain ⟨k, c⟩ := p
    intro x hx
    simp only [bumpScore] at hx
    split_ifs at hx with hk
    · simpa using Or.inr (by simpa using hx)
    · simp only [List.map_cons, List.mem_cons] at hx
      rcases hx with rfl | hx
      · exact Or.inr (by simp)
      · rcases ih x hx with rfl | hx2
        · exact Or.inl rfl
        · exact Or.inr (by simp [hx2])

lemma bumpScore_fst_nodup (acc : List (Nat × Nat)) (j : Nat)
    (h : (acc.map Prod.fst).Nodup) : ((bumpScore acc j).map Prod.fst).Nodup := by
  induction acc with
  | nil => simp [bumpScore]
  | cons p rest ih =>
    obtain ⟨k, c⟩ := p
    simp only [List.map_cons, List.nodup_cons] at h
    simp only [bumpScore]
    split_ifs with hk
    · simpa using h
    · simp only [List.map_cons, List.nodup_cons]
      refine ⟨fun hc => ?_, ih h.2⟩
      rcases bumpScore_fst_subset rest j k hc with rfl | hc2
      · exact hk rfl
      · exact h.1 hc2

lemma foldl_bump_preserve (ids : List Nat) (acc : List (Nat × Nat)) (i : Nat)
    (h : i ∈ acc.map Prod.fst) :
    i ∈ (ids.foldl (fun a x => bumpScore a x) acc).map Prod.fst := by
  induction ids generalizing acc with
  | nil => simpa using h
  | cons x rest ih =>
    simp only [List.foldl_cons]
    exact ih _ (bumpScore_fst_mem_preserve acc x i h)

lemma foldl_bump_self (ids : List Nat) (acc : List (Nat × Nat)) (i : Nat)
    (h : i ∈ ids) :
    i ∈ (ids.foldl (fun a x => bumpScore a x) acc).map Prod.fst := by
  induction ids generalizing acc with
  | nil => cases h
  | cons x rest ih =>
    simp only [List.foldl_cons]
    rcases List.mem_cons.mp h with rfl | hr
    · exact foldl_bump_preserve rest _ i (bumpScore_fst_mem_self acc i)
    · exact ih _ hr

lemma foldl_bump_subset (ids : List Nat) (acc : List (Nat × Nat)) :
    ∀ x ∈ (ids.foldl (fun a y => bumpScore a y) acc).map Prod.fst,
      x ∈ ids ∨ x ∈ acc.map Prod.fst := by
  induction ids generalizing acc with
  | nil => intro x hx; exact Or.inr (by simpa using hx)
  | cons y rest ih =>
    intro x hx
    simp only [List.foldl_cons] at hx
    rcases ih (bumpScore acc y) x hx with hxr | hxa
    · exact Or.inl (List.mem_cons_of_mem _ hxr)
    · rcases bumpScore_fst_subset acc y x hxa with rfl | hx2
      · exact Or.inl (List.mem_cons_self _ _)
      · exact Or.inr hx2

lemma foldl_bump_nodup (ids : List Nat) (acc : List (Nat × Nat))
    (h : (acc.map Prod.fst).Nodup) :
    ((ids.foldl (fun a y => bumpScore a y) acc).map Prod.fst).Nodup := by
  induction ids generalizing acc with
  | nil => simpa using h
  | cons y rest ih =>
    simp only [List.foldl_cons]
    exact ih _ (bumpScore_fst_nodup acc y h)

lemma kw_scores_foldl_mem (idx : List (String × List Nat)) (qk : List String)
    (acc : List (Nat × Nat)) (i : Nat)
    (h : i ∈ acc.map Prod.fst
      ∨ ∃ kw ∈ qk, ∃ ids, assocLookup idx kw = some ids ∧ i ∈ ids) :
    i ∈ (qk.foldl (fun a kw =>
      match assocLookup idx kw with
      | none => a
      | some ids => ids.foldl (fun a2 x => bumpScore a2 x) a) acc).map Prod.fst := by
  induction qk generalizing acc with
  | nil =>
    rcases h with h | ⟨kw, hkw, _⟩
    · simpa using h
    · cases hkw
  | cons k rest ih =>
    simp only [List.foldl_cons]
    rcases h with hacc | ⟨kw, hkw, ids, hl, hi⟩
    · refine ih _ (Or.inl ?_)
      rcases hlk : assocLookup idx k with _ | ids2
      · simpa using hacc
      · simpa using foldl_bump_preserve ids2 acc i hacc
    · rcases List.mem_cons.mp hkw with rfl | hr
      · refine ih _ (Or.inl ?_)
        rw [hl]
        exact foldl_bump_self ids acc i hi
      · exact ih _ (Or.inr ⟨kw, hr, ids, hl, hi⟩)

lemma kw_scores_mem (idx : List (String × List Nat)) (qk : List String)
    (i : Nat) (kw : String) (hkw : kw ∈ qk)
    (hlook : ∃ ids, assocLookup idx kw = some ids ∧ i ∈ ids) :
    i ∈ (kw_scores idx qk).map Prod.fst :=
  kw_scores_foldl_mem idx qk [] i (Or.inr ⟨kw, hkw, hlook⟩)

lemma kw_scores_foldl_subset (idx : List (String × List Nat)) (qk : List String)
    (acc : List (Nat × Nat)) :
    ∀ x ∈ (qk.foldl (fun a kw =>
      match assocLookup idx kw with
      | none => a
      | some ids => ids.foldl (fun a2 y => bumpScore a2 y) a) acc).map Prod.fst,
      x ∈ acc.map Prod.fst ∨ ∃ p ∈ idx, x ∈ p.2 := by
  induction qk generalizing acc with
  | nil => intro x hx; exact Or.inl (by simpa using hx)
  | cons k rest ih =>
    intro x hx
    simp only [List.foldl_cons] at hx
    rcases hlk : assocLookup idx k with _ | ids2
    · rw [hlk] at hx
      exact ih _ x hx
    · rw [hlk] at hx
      rcases ih _ x hx with hx2 | hx2
      · rcases foldl_bump_subset ids2 acc x hx2 with hxi | hxa
        · exact Or.inr ⟨(k, ids2), assocLookup_mem hlk, hxi⟩
        · exact Or.inl hxa
      · exact Or.inr hx2

lemma kw_scores_subset (idx : List (String × List Nat)) (qk : List String) :
    ∀ x ∈ (kw_scores idx qk).map Prod.fst, ∃ p ∈ idx, x ∈ p.2 := by
  intro x hx
  rcases kw_scores_foldl_subset idx qk [] x hx with hx2 | hx2
  · simp at hx2
  · exact hx2

lemma kw_scores_foldl_nodup (idx : List (String × List Nat)) (qk : List String)
    (acc : List (Nat × Nat)) (h : (acc.map Prod.fst).Nodup) :
    ((qk.foldl (fun a kw =>
      match assocLookup idx kw with
      | none => a
      | some ids => ids.foldl (fun a2 y => bumpScore a2 y) a) acc).map
        Prod.fst).Nodup := by
  induction qk generalizing acc with
  | nil => simpa using h
  | cons k rest ih =>
    simp only [List.foldl_cons]
    rcases hlk : assocLookup idx k with _ | ids2
    · exact ih _ h
    · exact ih _ (foldl_bump_nodup ids2 acc h)

lemma kw_scores_nodup (idx : List (String × List Nat)) (qk : List String) :
    ((kw_scores idx qk).map Prod.fst).Nodup :=
  kw_scores_foldl_nodup idx qk [] (by simp)

/-- Membership in the ids of a `KeywordIndexer.search` result: if some
query keyword's posting list holds the id and the whole score dict is
small enough that the truncation bites nothing, the id is returned. -/
lemma kw_search_mem (idx : List (String × List Nat)) (q : String) (k : Nat)
    (i : Nat) (B : List Nat)
    (hB : ∀ p ∈ idx, ∀ j ∈ p.2, j ∈ B)
    (hBk : B.length ≤ k)
    (kw : String) (hkw : kw ∈ extract_keywords q)
    (hlook : ∃ ids, assocLookup idx kw = some ids ∧ i ∈ ids) :
    i ∈ (kw_search idx q k).map Prod.fst := by
  unfold kw_search
  have hmem : i ∈ (kw_scores idx (extract_keywords q)).map Prod.fst :=
    kw_scores_mem idx _ i kw hkw hlook
  have hsub : (kw_scores idx (extract_keywords q)).map Prod.fst ⊆ B := by
    intro x hx
    obtain ⟨p, hp, hxp⟩ := kw_scores_subset idx _ x hx
    exact hB p hp x hxp
  have hlen : (kw_scores idx (extract_keywords q)).length ≤ k := by
    have := length_le_of_nodup_subset (kw_scores_nodup idx (extract_keywords q)) hsub
    rw [List.length_map] at this
    exact le_trans this hBk
  have hlen2 : (List.insertionSort kwScoreRel
      (kw_scores idx (extract_keywords q))).length ≤ k := by
    rw [List.length_insertionSort]
    exact hlen
  rw [List.take_of_length_le hlen2]
  exact ((List.perm_insertionSort kwScoreRel _).map Prod.fst).mem_iff.mpr hmem

/-- A query with no extractable terms produces an empty keyword-search
result. -/
lemma kw_search_nil (idx : List (String × List Nat)) (q : String) (k : Nat)
    (h : extract_keywords q = []) : kw_search idx q k = [] := by
  unfold kw_search kw_scores
  rw [h]
  simp [List.insertionSort]

/-- Claim C3, amended.  Over any state whose indices reference only stored
record ids (as every reachable state does), `remember` returns an id not
previously present in the store, and an immediately following `recall`
with the exact content as the query, no layer filter, and `top_k` at least
the (new) store size returns a list containing that id.  (The unamended
claim, requiring only `top_k ≥ 1`, is refuted by
the counterexample: a higher-importance tie can fill the only slot.) -/
theorem remember_recall_contains_amended
    (cfg : Config) (s : EngineState) (content : String) (ctx : Context) (topK : Nat)
    (hfresh : ∀ r ∈ s.records, r.id < s.nextId)
    (hvec : ∀ p ∈ s.vecIndex, p.1 ∈ s.records.map Record.id)
    (hvecnd : (s.vecIndex.map Prod.fst).Nodup)
    (hkw : ∀ p ∈ s.kwIndex, ∀ i ∈ p.2, i ∈ s.records.map Record.id)
    (htop : s.records.length + 1 ≤ topK) :
    (remember cfg s content ctx).2 ∉ s.records.map Record.id
    ∧ (remember cfg s content ctx).2 ∈
        ((recall_memories cfg (remember cfg s content ctx).1 content none topK
          true).2.map Record.id) := by
  have hid2 : (remember cfg s content ctx).2 = s.nextId := rfl
  have hrecs : (remember cfg s content ctx).1.records =
      s.records ++ [rememberedRecord s content ctx] := rfl
  have hkidx : (remember cfg s content ctx).1.kwIndex =
      kw_index_add s.kwIndex s.nextId (extract_keywords content) := rfl
  constructor
  · rw [hid2]
    intro hmem
    obtain ⟨r, hr, hrid⟩ := List.mem_map.mp hmem
    exact absurd (hfresh r hr) (by rw [hrid]; exact lt_irrefl _)
  · -- the new id passes the candidate filter
    have hcand : (candidate_ids cfg (remember cfg s content ctx).1 content topK
          true).isEmpty = true
        ∨ s.nextId ∈ candidate_ids cfg (remember cfg s content ctx).1 content
            topK true := by
      by_cases he : cfg.enableVectorSearch = true
      · right
        have hunfold : candidate_ids cfg (remember cfg s content ctx).1 content
            topK true =
            (vector_search cfg.vectorAvailable cfg.tfidfAvailable
                (remember cfg s content ctx).1.vecIndex
                ((create_embedding cfg content).getD []) (topK * 2) []).map Prod.fst
              ++ (kw_search (remember cfg s content ctx).1.kwIndex content
                  (topK * 2)).map Prod.fst := by
          unfold candidate_ids
          simp [he, embTruthy_enabled cfg content he]
        rw [hunfold]
        refine List.mem_append.mpr (Or.inl ?_)
        have hv : (remember cfg s content ctx).1.vecIndex =
            vec_add s.vecIndex s.nextId ((create_embedding cfg content).getD []) := by
          unfold remember
          simp [embTruthy_enabled cfg content he, rememberedRecord]
        rw [hv]
        have hsub : s.vecIndex.map Prod.fst ⊆ s.records.map Record.id := by
          intro x hx
          obtain ⟨p, hp, rfl⟩ := List.mem_map.mp hx
          exact hvec p hp
        have h2 : s.vecIndex.length ≤ s.records.length := by
          have h3 := length_le_of_nodup_subset hvecnd hsub
          rwa [List.length_map, List.length_map] at h3
        refine vector_search_mem_of_le _ _ _ _ _ _ ?_ (vec_add_fst_mem _ _ _)
        have h4 := vec_add_length s.vecIndex s.nextId
          ((create_embedding cfg content).getD [])
        omega
      · have he2 : cfg.enableVectorSearch = false := by
          simpa using he
        have hunfold : candidate_ids cfg (remember cfg s content ctx).1 content
            topK true =
            (kw_search (remember cfg s content ctx).1.kwIndex content
              (topK * 2)).map Prod.fst := by
          unfold candidate_ids
          simp [he2]
        by_cases hkws : extract_keywords content = []
        · left
          rw [hunfold, hkidx, kw_search_nil _ _ _ hkws]
          rfl
        · right
          rw [hunfold, hkidx]
          obtain ⟨kw, hkwmem⟩ := List.exists_mem_of_ne_nil _ hkws
          refine kw_search_mem _ _ _ _ (s.nextId :: s.records.map Record.id)
            ?_ ?_ kw hkwmem
            (kw_index_add_lookup s.kwIndex s.nextId _ kw hkwmem)
          · intro p hp j hj
            rcases kw_index_add_posting_subset s.kwIndex s.nextId _ p hp j hj with
              rfl | ⟨q, hq, hjq⟩
            · exact List.mem_cons_self _ _
            · exact List.mem_cons_of_mem _ (hkw q hq j hjq)
          · simp only [List.length_cons, List.length_map]
            omega
    -- the new record is in the eligible set
    have helig : rememberedRecord s content ctx ∈
        eligible_records (remember cfg s content ctx).1 none := by
      unfold eligible_records
      refine (List.perm_insertionSort _ _).mem_iff.mpr ?_
      rw [hrecs]
      exact List.mem_append.mpr (Or.inr (List.mem_singleton_self _))
    -- it survives the candidate filter
    have hsurv : rememberedRecord s content ctx ∈
        recall_survivors cfg (remember cfg s content ctx).1 content none topK true := by
      unfold recall_survivors
      refine List.mem_filter.mpr ⟨helig, ?_⟩
      refine Bool.or_eq_true_iff.mpr ?_
      rcases hcand with hc | hc
      · exact Or.inl hc
      · exact Or.inr (decide_eq_true hc)
    -- no truncation: the ranked list fits within `top_k`
    have hlen_ranked :
        (recall_ranked cfg (remember cfg s content ctx).1 content none topK
          true).length ≤ topK := by
      unfold recall_ranked recall_scored
      rw [List.length_insertionSort, List.length_map]
      have h5 : (recall_survivors cfg (remember cfg s content ctx).1 content none
          topK true).length ≤
          (eligible_records (remember cfg s content ctx).1 none).length := by
        unfold recall_survivors
        exact List.length_filter_le _ _
      have h6 : (eligible_records (remember cfg s content ctx).1 none).length =
          s.records.length + 1 := by
        unfold eligible_records
        rw [List.length_insertionSort]
        rw [hrecs]
        simp
      omega
    have hret : (recall_memories cfg (remember cfg s content ctx).1 content none
          topK true).2 =
        (recall_ranked cfg (remember cfg s content ctx).1 content none topK
          true).map Prod.fst := by
      unfold recall_memories
      rw [List.take_of_length_le hlen_ranked]
    rw [hret, hid2]
    have hmem2 : rememberedRecord s content ctx ∈
        (recall_ranked cfg (remember cfg s content ctx).1 content none topK
          true).map Prod.fst := by
      have h7 : (rememberedRecord s content ctx,
          calculate_relevance content (rememberedRecord s content ctx).content
            (rememberedRecord s content ctx).keywords) ∈
          recall_scored cfg (remember cfg s content ctx).1 content none topK true := by
        unfold recall_scored
        exact List.mem_map_of_mem _ hsurv
      have h8 := (List.perm_insertionSort scoreRel
        (recall_scored cfg (remember cfg s content ctx).1 content none topK
          true)).mem_iff.mpr h7
      exact List.mem_map_of_mem Prod.fst h8
    rw [List.map_map]
    obtain ⟨p, hp, hpe⟩ := List.mem_map.mp hmem2
    refine List.mem_map.mpr ⟨p, hp, ?_⟩
    show (p.1).id = s.nextId
    rw [hpe]
    rfl

/-! ### Helper lemmas for `compress` -/

lemma layer_deletions_eq_nil {L : List Record} {cap : Nat} (h : L.length ≤ cap) :
    layer_deletions L cap = [] := by
  unfold layer_deletions
  rw [if_neg (not_lt.mpr h)]

lemma mem_layer_deletions_of_mem_drop {L : List Record} {cap : Nat} {r : Record}
    (h : r ∈ (List.insertionSort compressRel L).drop cap) :
    r.id ∈ layer_deletions L cap := by
  have hlen : cap < L.length := by
    by_contra hc
    push_neg at hc
    have hnil : (List.insertionSort compressRel L).drop cap = [] := by
      apply List.drop_eq_nil_of_le
      rw [List.length_insertionSort]
      exact hc
    rw [hnil] at h
    cases h
  unfold layer_deletions
  rw [if_pos hlen]
  exact List.mem_map_of_mem _ h

/-- The record count a layer retains after deleting its own overflow (and
possibly ids of records of other layers) is at most its capacity. -/
lemma compress_kept_layer_le (s : EngineState) (lay : Layer) (cap : Nat)
    (del extra : List Nat)
    (hids : (s.records.map Record.id).Nodup)
    (hdel : ∀ i : Nat, i ∈ del ↔
      (i ∈ layer_deletions ((List.insertionSort tsDescRel s.records).filter
          (fun r2 => decide (r2.layer = lay))) cap ∨ i ∈ extra))
    (hextra : ∀ i ∈ extra, ∀ r ∈ s.records, r.id = i → ¬r.layer = lay) :
    ((s.records.filter (fun r => decide (r.id ∉ del))).filter
      (fun r => decide (r.layer = lay))).length ≤ cap := by
  have hAperm : List.Perm (List.insertionSort tsDescRel s.records) s.records :=
    List.perm_insertionSort _ _
  have hmemL : ∀ r ∈ (List.insertionSort tsDescRel s.records).filter
      (fun r2 => decide (r2.layer = lay)), r ∈ s.records ∧ r.layer = lay := by
    intro r hr
    obtain ⟨h1, h2⟩ := List.mem_filter.mp hr
    exact ⟨hAperm.mem_iff.mp h1, of_decide_eq_true h2⟩
  rw [List.filter_comm]
  have hperm2 : List.Perm
      ((s.records.filter (fun r => decide (r.layer = lay))).filter
        (fun r => decide (r.id ∉ del)))
      (((List.insertionSort tsDescRel s.records).filter
        (fun r2 => decide (r2.layer = lay))).filter
          (fun r => decide (r.id ∉ del))) :=
    (hAperm.symm.filter _).filter _
  rw [hperm2.length_eq]
  set L := (List.insertionSort tsDescRel s.records).filter
    (fun r2 => decide (r2.layer = lay)) with hLdef
  by_cases hcap : cap < L.length
  · set SL := List.insertionSort compressRel L with hSLdef
    have hpermSL : List.Perm SL L := List.perm_insertionSort _ _
    have hperm3 : List.Perm (L.filter (fun r => decide (r.id ∉ del)))
        (SL.filter (fun r => decide (r.id ∉ del))) :=
      hpermSL.symm.filter _
    rw [hperm3.length_eq]
    have hrecnd : s.records.Nodup := List.Nodup.of_map _ hids
    have hLnd : L.Nodup := (hAperm.nodup_iff.mpr hrecnd).filter _
    have hSLnd : SL.Nodup := hpermSL.nodup_iff.mpr hLnd
    have hinj := List.inj_on_of_nodup_map hids
    have hsplit : SL.take cap ++ SL.drop cap = SL := List.take_append_drop cap SL
    have hdisj : List.Disjoint (SL.take cap) (SL.drop cap) :=
      List.disjoint_of_nodup_append (by rw [hsplit]; exact hSLnd)
    have hdropnil : (SL.drop cap).filter (fun r => decide (r.id ∉ del)) = [] := by
      rw [List.filter_eq_nil_iff]
      intro r hr
      have hrd : r.id ∈ del := (hdel r.id).mpr (Or.inl
        (mem_layer_deletions_of_mem_drop hr))
      simp [hrd]
    have htake : (SL.take cap).filter (fun r => decide (r.id ∉ del)) =
        SL.take cap := by
      rw [List.filter_eq_self]
      intro r hr
      have hrL : r ∈ L := hpermSL.mem_iff.mp (List.mem_of_mem_take hr)
      have hrrec : r ∈ s.records := (hmemL r hrL).1
      have hrlay : r.layer = lay := (hmemL r hrL).2
      suffices hnot : r.id ∉ del by simp [hnot]
      intro hin
      rcases (hdel r.id).mp hin with hdelL | hex
      · unfold layer_deletions at hdelL
        rw [if_pos hcap] at hdelL
        obtain ⟨r2, hr2, hid2⟩ := List.mem_map.mp hdelL
        have hr2L : r2 ∈ L := hpermSL.mem_iff.mp (List.mem_of_mem_drop hr2)
        have hr2rec : r2 ∈ s.records := (hmemL r2 hr2L).1
        have heq : r2 = r := hinj hr2rec hrrec hid2
        exact hdisj hr (heq ▸ hr2)
      · exact hextra r.id hex r hrrec rfl hrlay
    calc (SL.filter (fun r => decide (r.id ∉ del))).length
        = ((SL.take cap ++ SL.drop cap).filter
            (fun r => decide (r.id ∉ del))).length := by rw [hsplit]
      _ = ((SL.take cap).filter (fun r => decide (r.id ∉ del))).length +
            ((SL.drop cap).filter (fun r => decide (r.id ∉ del))).length := by
          rw [List.filter_append, List.length_append]
      _ ≤ cap := by
          rw [hdropnil, htake]
          simpa using List.length_take_le cap SL
  · push_neg at hcap
    have hLq : L.filter (fun r => decide (r.id ∉ del)) = L := by
      rw [List.filter_eq_self]
      intro r hr
      suffices hnot : r.id ∉ del by simp [hnot]
      intro hin
      rcases (hdel r.id).mp hin with hdelL | hex
      · rw [layer_deletions_eq_nil hcap] at hdelL
        cases hdelL
      · exact hextra r.id hex r (hmemL r hr).1 rfl (hmemL r hr).2
    rw [hLq]
    exact hcap

/-- Every id marked for deletion on behalf of one layer is the id of a
record of that layer (given unique ids). -/
lemma layer_deletions_layer (s : EngineState) (lay : Layer) (cap : Nat)
    (hids : (s.records.map Record.id).Nodup) :
    ∀ i ∈ layer_deletions ((List.insertionSort tsDescRel s.records).filter
        (fun r2 => decide (r2.layer = lay))) cap,
      ∀ r ∈ s.records, r.id = i → r.layer = lay := by
  intro i hi r hr hid
  unfold layer_deletions at hi
  split_ifs at hi with hc
  · obtain ⟨r2, hr2, hid2⟩ := List.mem_map.mp hi
    have hr2L := (List.perm_insertionSort compressRel _).mem_iff.mp
      (List.mem_of_mem_drop hr2)
    obtain ⟨h1, h2⟩ := List.mem_filter.mp hr2L
    have hr2rec : r2 ∈ s.records :=
      (List.perm_insertionSort tsDescRel _).mem_iff.mp h1
    have heq : r2 = r :=
      List.inj_on_of_nodup_map hids hr2rec hr (by rw [hid2, hid])
    rw [← heq]
    exact of_decide_eq_true h2
  · cases hi

/-- A record of one layer is marked for deletion by that layer's policy
exactly when it lies beyond the capacity boundary of the layer's
`(importance desc, access_count desc)` ranking. -/
lemma layer_deletions_mem_iff (s : EngineState) (lay : Layer) (cap : Nat)
    (hids : (s.records.map Record.id).Nodup) :
    ∀ r ∈ s.records, r.layer = lay →
      (r.id ∈ layer_deletions ((List.insertionSort tsDescRel s.records).filter
          (fun r2 => decide (r2.layer = lay))) cap ↔
        r ∈ (List.insertionSort compressRel
          ((List.insertionSort tsDescRel s.records).filter
            (fun r2 => decide (r2.layer = lay)))).drop cap) := by
  intro r hr _
  constructor
  · intro h
    unfold layer_deletions at h
    split_ifs at h with hc
    · obtain ⟨r2, hr2, hid2⟩ := List.mem_map.mp h
      have hr2L := (List.perm_insertionSort compressRel _).mem_iff.mp
        (List.mem_of_mem_drop hr2)
      obtain ⟨h1, _⟩ := List.mem_filter.mp hr2L
      have hr2rec : r2 ∈ s.records :=
        (List.perm_insertionSort tsDescRel _).mem_iff.mp h1
      have heq : r2 = r := List.inj_on_of_nodup_map hids hr2rec hr hid2
      rw [← heq]
      exact hr2
    · cases h
  · exact mem_layer_deletions_of_mem_drop

/-- The capacity invariant after `compress` (shared between the C8 and C9
theorems). -/
lemma compress_capacity_core (cfg : Config) (s : EngineState) (str : String)
    (hids : (s.records.map Record.id).Nodup) :
    ((compress cfg s str).1.records.filter
        (fun r => decide (r.layer = Layer.daily))).length ≤ cfg.maxDailyMemories
    ∧ ((compress cfg s str).1.records.filter
        (fun r => decide (r.layer = Layer.global))).length ≤
      cfg.globalMemoriesLimit := by
  have hrecs : (compress cfg s str).1.records =
      s.records.filter (fun r => decide (r.id ∉ compress_deleted_ids cfg s)) := rfl
  rw [hrecs]
  constructor
  · refine compress_kept_layer_le s Layer.daily cfg.maxDailyMemories
      (compress_deleted_ids cfg s)
      (layer_deletions (compress_global s) cfg.globalMemoriesLimit) hids
      (fun i => List.mem_append) ?_
    intro i hi r hr hid
    have hlay := layer_deletions_layer s Layer.global cfg.globalMemoriesLimit
      hids i hi r hr hid
    rw [hlay]
    decide
  · refine compress_kept_layer_le s Layer.global cfg.globalMemoriesLimit
      (compress_deleted_ids cfg s)
      (layer_deletions (compress_daily s) cfg.maxDailyMemories) hids
      (fun i => by
        unfold compress_deleted_ids
        rw [List.mem_append]
        exact or_comm) ?_
    intro i hi r hr hid
    have hlay := layer_deletions_layer s Layer.daily cfg.maxDailyMemories
      hids i hi r hr hid
    rw [hlay]
    decide

/-- `compress` does nothing at all when no layer overflows. -/
lemma compress_eq_of_deleted_nil (cfg : Config) (s : EngineState) (str : String)
    (h : compress_deleted_ids cfg s = []) :
    compress cfg s str =
      (s, { deletedCount := 0, remainingCount := s.records.length,
            strategy := str, timestamp := s.now }) := by
  unfold compress
  rw [h]
  simp [List.filter_eq_self]

/-! ### Claim C8 -/

/-- Claim C8: after `compress`, each layer's record count is at most that
layer's configured capacity, and a record of a layer is deleted exactly
when it lies beyond the capacity boundary of that layer's
`(importance desc, access_count desc)` ranking (ties broken by the
newest-first fetch order, which the stable sort preserves).  The store is
assumed to have unique ids, as every reachable store does. -/
theorem compress_capacity_spec (cfg : Config) (s : EngineState)
    (hids : (s.records.map Record.id).Nodup) :
    ((compress cfg s "importance").1.records.filter
        (fun r => decide (r.layer = Layer.daily))).length ≤ cfg.maxDailyMemories
    ∧ ((compress cfg s "importance").1.records.filter
        (fun r => decide (r.layer = Layer.global))).length ≤
      cfg.globalMemoriesLimit
    ∧ (∀ r ∈ s.records, r.layer = Layer.daily →
        (r.id ∈ compress_deleted_ids cfg s ↔
          r ∈ (List.insertionSort compressRel (compress_daily s)).drop
            cfg.maxDailyMemories))
    ∧ (∀ r ∈ s.records, r.layer = Layer.global →
        (r.id ∈ compress_deleted_ids cfg s ↔
          r ∈ (List.insertionSort compressRel (compress_global s)).drop
            cfg.globalMemoriesLimit)) := by
  obtain ⟨h1, h2⟩ := compress_capacity_core cfg s "importance" hids
  refine ⟨h1, h2, ?_, ?_⟩
  · intro r hr hlay
    constructor
    · intro h
      rcases List.mem_append.mp h with hd | hg
      · exact (layer_deletions_mem_iff s Layer.daily cfg.maxDailyMemories hids
          r hr hlay).mp hd
      · have := layer_deletions_layer s Layer.global cfg.globalMemoriesLimit
          hids r.id hg r hr rfl
        rw [hlay] at this
        cases this
    · intro h
      exact List.mem_append.mpr (Or.inl
        ((layer_deletions_mem_iff s Layer.daily cfg.maxDailyMemories hids
          r hr hlay).mpr h))
  · intro r hr hlay
    constructor
    · intro h
      rcases List.mem_append.mp h with hd | hg
      · have := layer_deletions_layer s Layer.daily cfg.maxDailyMemories
          hids r.id hd r hr rfl
        rw [hlay] at this
        cases this
      · exact (layer_deletions_mem_iff s Layer.global cfg.globalMemoriesLimit
          hids r hr hlay).mp hg
    · intro h
      exact List.mem_append.mpr (Or.inr
        ((layer_deletions_mem_iff s Layer.global cfg.globalMemoriesLimit hids
          r hr hlay).mpr h))

/-- A configuration with `max_daily_memories = 2` for the capacity
scenario. -/
def cfgY : Config :=
  { vectorAvailable := true, tfidfAvailable := true,
    maxDailyMemories := 2, globalMemoriesLimit := 5000,
    compressionThreshold := 2000, enableVectorSearch := true,
    enableCompression := true, wordHash := fun _ => 0 }

/-- Three daily records remembered in a row under `cfgY`. -/
def threeDaily : EngineState :=
  (remember cfgY (remember cfgY (remember cfgY emptyState "aa" ctx0).1
    "aa" ctx0).1 "aa" ctx0).1

/-- Witness for C8: with `max_daily_memories = 2` and three remembered
daily records, `compress` leaves at most 2 daily records. -/
theorem compress_capacity_spec_witness :
    (threeDaily.records.map Record.id).Nodup
    ∧ ((compress cfgY threeDaily "importance").1.records.filter
        (fun r => decide (r.layer = Layer.daily))).length ≤
      cfgY.maxDailyMemories :=
  ⟨by decide, (compress_capacity_spec cfgY threeDaily (by decide)).1⟩

/-! ### Claim C9 -/

/-- Claim C9: running `compress` twice in a row (no intervening writes)
deletes nothing the second time — its `deleted_count` is `0` and the
engine state (store, indices, index files, cache, clock) is returned
unchanged. -/
theorem compress_idempotent_spec (cfg : Config) (s : EngineState)
    (hids : (s.records.map Record.id).Nodup) :
    (compress cfg (compress cfg s "importance").1 "importance").2.deletedCount = 0
    ∧ (compress cfg (compress cfg s "importance").1 "importance").1 =
        (compress cfg s "importance").1 := by
  obtain ⟨h1, h2⟩ := compress_capacity_core cfg s "importance" hids
  have hdaily : (compress_daily (compress cfg s "importance").1).length ≤
      cfg.maxDailyMemories := by
    unfold compress_daily
    rw [((List.perm_insertionSort tsDescRel
      (compress cfg s "importance").1.records).filter _).length_eq]
    exact h1
  have hglobal : (compress_global (compress cfg s "importance").1).length ≤
      cfg.globalMemoriesLimit := by
    unfold compress_global
    rw [((List.perm_insertionSort tsDescRel
      (compress cfg s "importance").1.records).filter _).length_eq]
    exact h2
  have hnil : compress_deleted_ids cfg (compress cfg s "importance").1 = [] := by
    unfold compress_deleted_ids
    rw [layer_deletions_eq_nil hdaily, layer_deletions_eq_nil hglobal]
    rfl
  rw [compress_eq_of_deleted_nil cfg (compress cfg s "importance").1
    "importance" hnil]
  exact ⟨rfl, rfl⟩

/-! ### Helper lemmas for the `recall` ranking claim -/

/-- Inserting a pair into a list ordered by descending score places it in
front of its own score class and does not disturb any score class. -/
lemma orderedInsert_filter_score (a : Record × ℚ) (l : List (Record × ℚ)) (sc : ℚ) :
    (List.orderedInsert scoreRel a l).filter (fun p => decide (p.2 = sc)) =
      if a.2 = sc then a :: l.filter (fun p => decide (p.2 = sc))
      else l.filter (fun p => decide (p.2 = sc)) := by
  induction l with
  | nil =>
    simp only [List.orderedInsert]
    by_cases h : a.2 = sc <;> simp [h]
  | cons b t ih =>
    simp only [List.orderedInsert]
    by_cases hr : scoreRel a b
    · rw [if_pos hr]
      by_cases ha : a.2 = sc <;> simp [ha]
    · rw [if_neg hr]
      have hab : a.2 < b.2 := lt_of_not_le hr
      by_cases ha : a.2 = sc <;> by_cases hb : b.2 = sc
      · exact absurd (ha.trans hb.symm) (ne_of_lt hab)
      · simp [List.filter_cons, hb, ha, ih]
      · simp [List.filter_cons, hb, ha, ih]
      · simp [List.filter_cons, hb, ha, ih]

/-- The stable sort of `recall` leaves every score class in its original
(eligible-set) order. -/
lemma insertionSort_filter_score (l : List (Record × ℚ)) (sc : ℚ) :
    (List.insertionSort scoreRel l).filter (fun p => decide (p.2 = sc)) =
      l.filter (fun p => decide (p.2 = sc)) := by
  induction l with
  | nil => rfl
  | cons a t ih =>
    show (List.orderedInsert scoreRel a (List.insertionSort scoreRel t)).filter
        (fun p => decide (p.2 = sc)) = _
    rw [orderedInsert_filter_score, ih]
    by_cases h : a.2 = sc <;> simp [h, List.filter_cons]

/-- Folding `_update_access` over a duplicate-free id list bumps exactly
the rows whose id is in the list. -/
lemma update_access_foldl (ids : List Nat) (now : Nat) (recs : List Record)
    (h : ids.Nodup) :
    ids.foldl (fun rs i => update_access i now rs) recs =
      recs.map (fun r => if r.id ∈ ids then
        { r with accessCount := r.accessCount + 1, lastAccess := some now }
        else r) := by
  induction ids generalizing recs with
  | nil => simp
  | cons i rest ih =>
    obtain ⟨hni, hnd⟩ := List.nodup_cons.mp h
    simp only [List.foldl_cons]
    rw [ih _ hnd]
    unfold update_access
    rw [List.map_map]
    refine congrArg (fun f => List.map f recs) (funext fun r => ?_)
    simp only [Function.comp_apply]
    by_cases hr : r.id = i
    · simp [hr, hni, List.mem_cons]
    · by_cases hrest : r.id ∈ rest <;> simp [hr, hrest, List.mem_cons]

/-- The ids of the records returned by `recall` are duplicate-free
whenever the store's ids are. -/
lemma returned_ids_nodup (cfg : Config) (s : EngineState) (q : String)
    (layer : Option Layer) (topK : Nat) (hyb : Bool)
    (hids : (s.records.map Record.id).Nodup) :
    ((recall_memories cfg s q layer topK hyb).2.map Record.id).Nodup := by
  have hbase : ((match layer with
      | none => s.records
      | some l => s.records.filter (fun r => decide (r.layer = l))).map
        Record.id).Nodup := by
    cases layer with
    | none => exact hids
    | some l => exact ((List.filter_sublist _).map Record.id).nodup hids
  have helig : ((eligible_records s layer).map Record.id).Nodup := by
    unfold eligible_records
    exact ((List.perm_insertionSort eligibleRel _).map Record.id).nodup_iff.mpr hbase
  have hsurv : ((recall_survivors cfg s q layer topK hyb).map Record.id).Nodup := by
    unfold recall_survivors
    exact ((List.filter_sublist _).map Record.id).nodup helig
  have hscored : ((recall_scored cfg s q layer topK hyb).map
      (fun p => (Prod.fst p).id)).Nodup := by
    unfold recall_scored
    rw [List.map_map]
    exact hsurv
  have hranked : ((recall_ranked cfg s q layer topK hyb).map
      (fun p => (Prod.fst p).id)).Nodup := by
    unfold recall_ranked
    exact ((List.perm_insertionSort scoreRel _).map _).nodup_iff.mpr hscored
  have htake : (((recall_ranked cfg s q layer topK hyb).take topK).map
      (fun p => (Prod.fst p).id)).Nodup :=
    ((List.take_sublist _ _).map _).nodup hranked
  show ((((recall_ranked cfg s q layer topK hyb).take topK).map Prod.fst).map
    Record.id).Nodup
  rw [List.map_map]
  exact htake

/-! ### Claim C7 -/

set_option maxHeartbeats 1000000 in
/-- Claim C7: `recall` returns the surviving candidates sorted by relevance
descending — stably, each score class keeping its eligible-set
(importance-then-recency) order — truncated to `top_k`; every returned
record's row gets `access_count` incremented and `last_access` stamped; and
a record whose keywords fully contain the (non-empty) query terms scores
strictly above one with no matching keyword, hence is ranked strictly above
it wherever both appear in the ranking. -/
theorem recall_ranking_spec (cfg : Config) (s : EngineState) (q : String)
    (layer : Option Layer) (topK : Nat) (hyb : Bool)
    (hids : (s.records.map Record.id).Nodup) :
    (recall_memories cfg s q layer topK hyb).2 =
      ((recall_ranked cfg s q layer topK hyb).take topK).map Prod.fst
    ∧ List.Sorted (fun a b : ℚ => b ≤ a)
        ((recall_memories cfg s q layer topK hyb).2.map
          (fun r => calculate_relevance q r.content r.keywords))
    ∧ (∀ sc : ℚ, (recall_ranked cfg s q layer topK hyb).filter
          (fun p => decide (p.2 = sc)) =
        (recall_scored cfg s q layer topK hyb).filter
          (fun p => decide (p.2 = sc)))
    ∧ (recall_memories cfg s q layer topK hyb).1.records =
        s.records.map (fun r =>
          if r.id ∈ (recall_memories cfg s q layer topK hyb).2.map Record.id then
            { r with accessCount := r.accessCount + 1, lastAccess := some s.now }
          else r)
    ∧ ∀ A B : Record, extract_keywords q ≠ [] →
        (∀ t ∈ extract_keywords q, t ∈ A.keywords) →
        (∀ t ∈ extract_keywords q, t ∉ B.keywords) →
        calculate_relevance q B.content B.keywords
            < calculate_relevance q A.content A.keywords
          ∧ ∀ (i j : Nat) (hi : i < (recall_ranked cfg s q layer topK hyb).length)
              (hj : j < (recall_ranked cfg s q layer topK hyb).length),
              ((recall_ranked cfg s q layer topK hyb).get ⟨i, hi⟩).1 = A →
              ((recall_ranked cfg s q layer topK hyb).get ⟨j, hj⟩).1 = B →
              i < j := by
  have hsorted : List.Sorted scoreRel (recall_ranked cfg s q layer topK hyb) :=
    List.sorted_insertionSort scoreRel _
  have hinv : ∀ p ∈ recall_ranked cfg s q layer topK hyb,
      p.2 = calculate_relevance q p.1.content p.1.keywords := by
    intro p hp
    have hp2 : p ∈ recall_scored cfg s q layer topK hyb :=
      (List.perm_insertionSort scoreRel _).mem_iff.mp hp
    unfold recall_scored at hp2
    obtain ⟨r, _, rfl⟩ := List.mem_map.mp hp2
    rfl
  refine ⟨rfl, ?_, ?_, ?_, ?_⟩
  · -- sortedness of the returned scores
    have hret : (recall_memories cfg s q layer topK hyb).2 =
        ((recall_ranked cfg s q layer topK hyb).take topK).map Prod.fst := rfl
    rw [hret, List.map_map]
    have hcongr : (((recall_ranked cfg s q layer topK hyb).take topK).map
        ((fun r => calculate_relevance q r.content r.keywords) ∘ Prod.fst)) =
        ((recall_ranked cfg s q layer topK hyb).take topK).map Prod.snd := by
      refine List.map_congr_left ?_
      intro p hp
      exact (hinv p (List.mem_of_mem_take hp)).symm
    rw [hcongr, List.map_take]
    have hp2 : List.Sorted (fun a b : ℚ => b ≤ a)
        ((recall_ranked cfg s q layer topK hyb).map Prod.snd) :=
      List.Pairwise.map Prod.snd (fun _ _ h => h) hsorted
    exact hp2.sublist (List.take_sublist _ _)
  · intro sc
    unfold recall_ranked
    exact insertionSort_filter_score _ sc
  · show ((((recall_ranked cfg s q layer topK hyb).take topK).map
        Prod.fst).map Record.id).foldl
      (fun rs i => update_access i s.now rs) s.records = _
    exact update_access_foldl _ s.now s.records
      (returned_ids_nodup cfg s q layer topK hyb hids)
  · intro A B hq hA hB
    have hlt : calculate_relevance q B.content B.keywords
        < calculate_relevance q A.content A.keywords := by
      simp only [calculate_relevance]
      have hsub : (extract_keywords q).toFinset ⊆ A.keywords.toFinset := by
        intro t ht
        exact List.mem_toFinset.mpr (hA t (List.mem_toFinset.mp ht))
      have hinterA : (extract_keywords q).toFinset ∩ A.keywords.toFinset =
          (extract_keywords q).toFinset := Finset.inter_eq_left.mpr hsub
      have hcard : 1 ≤ (extract_keywords q).toFinset.card := by
        obtain ⟨t, ht⟩ := List.exists_mem_of_ne_nil _ hq
        exact Finset.card_pos.mpr ⟨t, List.mem_toFinset.mpr ht⟩
      have hmax : max (extract_keywords q).toFinset.card 1 =
          (extract_keywords q).toFinset.card := max_eq_left hcard
      have hinterB : (extract_keywords q).toFinset ∩ B.keywords.toFinset = ∅ := by
        rw [Finset.eq_empty_iff_forall_not_mem]
        intro t ht
        obtain ⟨h1, h2⟩ := Finset.mem_inter.mp ht
        exact hB t (List.mem_toFinset.mp h1) (List.mem_toFinset.mp h2)
      rw [hinterA, hinterB, hmax]
      have hne : (((extract_keywords q).toFinset.card : ℕ) : ℚ) ≠ 0 := by
        have : (0:ℚ) < ((extract_keywords q).toFinset.card : ℚ) := by
          exact_mod_cast lt_of_lt_of_le Nat.zero_lt_one hcard
        exact ne_of_gt this
      rw [div_self hne]
      have hiA : (0:ℚ) ≤ (if strContains (lowerString A.content)
          (lowerString q) then (1:ℚ) else 0) := by
        split_ifs <;> norm_num
      have hiB : (if strContains (lowerString B.content)
          (lowerString q) then (1:ℚ) else 0) ≤ 1 := by
        split_ifs <;> norm_num
      simp only [Finset.card_empty, Nat.cast_zero, zero_div]
      linarith
    refine ⟨hlt, ?_⟩
    intro i j hi hj hgA hgB
    rcases lt_trichotomy i j with h | h | h
    · exact h
    · exfalso
      subst h
      have hAB : A = B := by rw [← hgA, hgB]
      rw [hAB] at hlt
      exact lt_irrefl _ hlt
    · exfalso
      have hrel := List.pairwise_iff_get.mp hsorted ⟨j, hj⟩ ⟨i, hi⟩ h
      have hvi := hinv _ (List.get_mem _ _ hi)
      have hvj := hinv _ (List.get_mem _ _ hj)
      rw [hgA] at hvi
      rw [hgB] at hvj
      unfold scoreRel at hrel
      rw [hvi, hvj] at hrel
      exact absurd hrel (not_le.mpr hlt)

/-- Two records used by the C7 witness: one whose keywords contain all the
query terms, one with no matching keyword. -/
def recAB : Record :=
  ⟨0, "apple banana", ctx0, 0, Layer.daily, ["apple", "banana"], 1/2, 0, none⟩

def recCD : Record :=
  ⟨1, "cherry grape", ctx0, 1, Layer.daily, ["cherry", "grape"], 1/2, 0, none⟩

/-- Witness for C7: for the query `"apple banana"`, a full-keyword match
outscores a no-keyword match. -/
theorem recall_ranking_spec_witness :
    extract_keywords "apple banana" ≠ []
    ∧ calculate_relevance "apple banana" recCD.content recCD.keywords
        < calculate_relevance "apple banana" recAB.content recAB.keywords :=
  ⟨by decide,
    ((recall_ranking_spec cfgX emptyState "apple banana" none 2 true
      (by decide)).2.2.2.2 recAB recCD (by decide) (by decide)
      (by decide)).1⟩

/-- Witness for C9: a fresh engine compressed twice. -/
theorem compress_idempotent_spec_witness :
    (emptyState.records.map Record.id).Nodup
    ∧ (compress cfgX (compress cfgX emptyState "importance").1
        "importance").2.deletedCount = 0 :=
  ⟨by decide, (compress_idempotent_spec cfgX emptyState (by decide)).1⟩

/-- Witness for the amended C3: on a fresh engine, `remember("hello world")`
returns id `0` and `recall("hello world", top_k = 1)` returns it. -/
theorem remember_recall_contains_amended_witness :
    (remember cfgX emptyState "hello world" ctx0).2 ∉
      emptyState.records.map Record.id
    ∧ (remember cfgX emptyState "hello world" ctx0).2 ∈
        ((recall_memories cfgX (remember cfgX emptyState "hello world" ctx0).1
          "hello world" none 1 true).2.map Record.id) :=
  remember_recall_contains_amended cfgX emptyState "hello world" ctx0 1
    (by intro r hr; cases hr) (by intro p hp; cases hp)
    (by simp [emptyState]) (by intro p hp; cases hp) (by simp [emptyState])

end EnhancedMemory
